import Mathlib

/-!
Verification development for the `ant` job scheduler (Go, two programs):
the CLI `ant` (source file `part_000`) and the daemon `antd` (`antd.go`).

Strings are modelled as `List Char`.  Instants are modelled as `Int`
nanoseconds since the Unix epoch, in a fixed-offset (DST-free) location;
the Go code evaluates schedules in `now.Location()`, and the fixed-offset
model is where weekday / time-of-day arithmetic of `time.Date` and
`AddDate` coincides with plain nanosecond arithmetic.  Machine integers
(`int`, `int64`, `time.Duration`) are modelled as `Int` with an explicit
wrap modulo 2^64 at the one multiplication where Go can overflow.
-/

namespace Ant

/-- Model of Go `unicode.IsSpace` (the Unicode White_Space property),
which `strings.TrimSpace` and `strings.Fields` split on. -/
def goIsSpace (c : Char) : Bool :=
  c.toNat = 32 || c.toNat = 9 || c.toNat = 10 || c.toNat = 11 || c.toNat = 12 ||
  c.toNat = 13 || c.toNat = 0x85 || c.toNat = 0xA0 ||
  c.toNat = 0x1680 ||
  (0x2000 ≤ c.toNat && c.toNat ≤ 0x200A) ||
  c.toNat = 0x2028 || c.toNat = 0x2029 || c.toNat = 0x202F ||
  c.toNat = 0x205F || c.toNat = 0x3000

/-- Model of Go `strings.TrimSpace`. -/
def goTrimSpace (s : List Char) : List Char :=
  ((s.dropWhile goIsSpace).reverse.dropWhile goIsSpace).reverse

/-- Model of Go `strings.Fields`: the maximal runs of non-space characters. -/
def goFields (s : List Char) : List (List Char) :=
  (s.splitOnP goIsSpace).filter (fun f => f ≠ [])

def isDigit (c : Char) : Bool := 48 ≤ c.toNat && c.toNat ≤ 57

/-- Decimal value of a digit string (most significant first). -/
def natOfDigits (s : List Char) : Nat :=
  s.foldl (fun a c => 10 * a + (c.toNat - '0'.toNat)) 0

/-- Shared core of Go `strconv.Atoi` after sign handling: a nonempty
all-digit string whose signed value fits in a 64-bit `int`
(Go's `int` is 64-bit on the targets this program runs on). -/
def atoiCore (r : List Char) (sign : Int) : Option Int :=
  if r ≠ [] ∧ r.all isDigit then
    let v : Int := sign * (natOfDigits r : Int)
    if -(2 ^ 63) ≤ v ∧ v ≤ 2 ^ 63 - 1 then some v else none
  else none

/-- Model of Go `strconv.Atoi`: optional sign, nonempty digits, 64-bit range. -/
def goAtoi (s : List Char) : Option Int :=
  match s with
  | '+' :: r => atoiCore r 1
  | '-' :: r => atoiCore r (-1)
  | r => atoiCore r 1

/-! ## Time constants and civil-time arithmetic (fixed-offset location) -/

def nsPerSec : Int := 1000000000
def nsPerMin : Int := 60000000000
def nsPerHour : Int := 3600000000000
def nsPerDay : Int := 86400000000000
def nsPerWeek : Int := 604800000000000

/-- Midnight of the calendar day containing `t`. -/
def startOfDay (t : Int) : Int := nsPerDay * (t / nsPerDay)

/-- Model of `time.Date(now.Year(), now.Month(), now.Day(), h, m, 0, 0, loc)`:
the instant on `t`'s calendar date at wall-clock `h:m`. -/
def dateAt (t h m : Int) : Int := startOfDay t + h * nsPerHour + m * nsPerMin

/-- Model of `Time.Weekday()`: 0 = Sunday … 6 = Saturday.
The Unix epoch (day 0) was a Thursday (= 4). -/
def weekdayOf (t : Int) : Int := (t / nsPerDay + 4) % 7

/-- Model of `Time.Hour()`. -/
def hourOf (t : Int) : Int := t % nsPerDay / nsPerHour

/-- Model of `Time.Minute()`. -/
def minuteOf (t : Int) : Int := t % nsPerDay % nsPerHour / nsPerMin

/-- Model of `Time.Unix()`: whole seconds since the epoch (floor). -/
def toUnixSec (t : Int) : Int := t / nsPerSec

/-! ## The `Schedule` struct (identical in both Go files) -/

inductive ScheduleType
  | SingleRun
  | Repeating
deriving DecidableEq

/-- `Schedule` from the Go sources.  `timeOfDay` is an instant (the CLI's
`parseTimeOfDay` builds today's date at the given wall-clock time); only
its `Hour()`/`Minute()` are ever read by `CalculateNextRun`.  Field
defaults are the Go zero values used when a branch leaves a field unset. -/
structure Schedule where
  type : ScheduleType := ScheduleType.SingleRun
  interval : Int := 0
  weekday : Int := 0
  timeOfDay : Int := 0
  isInterval : Bool := false
deriving DecidableEq

/-! ## CLI (`part_000`) parsing helpers -/

/-- The unit suffix map of the CLI's `parseInterval`, as nanoseconds. -/
def unitNs (c : Char) : Option Int :=
  if c = 's' then some nsPerSec
  else if c = 'm' then some nsPerMin
  else if c = 'h' then some nsPerHour
  else if c = 'd' then some nsPerDay
  else if c = 'w' then some nsPerWeek
  else none

/-- Wrap of a mathematical integer into a signed 64-bit value, as Go's
`int64` multiplication does on overflow. -/
def wrap64 (x : Int) : Int := (x + 2 ^ 63) % 2 ^ 64 - 2 ^ 63

/-- CLI `parseInterval`: Go ranges over a map of the five one-character
suffixes; since only the final character can match a suffix, the map
iteration order is immaterial and we test the final character directly.
The multiplication `time.Duration(n) * unit` is 64-bit and wraps. -/
def parseIntervalCLI (input : List Char) : Option Int :=
  match input.getLast? with
  | some c =>
    match unitNs c with
    | some u =>
      match goAtoi input.dropLast with
      | some n => some (wrap64 (n * u))
      | none => none
    | none => none
  | none => none

/-- Model of Go `strings.ToLower` for the comparisons `parseWeekday`
makes.  It maps every rune whose Unicode simple lowercase image is an
ASCII character: the letters A–Z, plus U+0130 (LATIN CAPITAL LETTER I
WITH DOT ABOVE → `i`, so Go accepts `frİ` as `fri`) and U+212A (KELVIN
SIGN → `k`); no other code point has an ASCII simple lowercase image.
Runes outside this set are left unchanged where Go may still lower them
within non-ASCII; since the weekday names are pure ASCII, a rune whose
Go image is non-ASCII fails the name comparison either way, so
`parseWeekday` built on this map is extensionally Go's. -/
def toLowerGo (c : Char) : Char :=
  if 65 ≤ c.toNat ∧ c.toNat ≤ 90 then Char.ofNat (c.toNat + 32)
  else if c.toNat = 0x130 then 'i'
  else if c.toNat = 0x212A then 'k'
  else c

/-- `parseWeekday` (same in both files): lower-cased three-letter name. -/
def parseWeekday (day : List Char) : Option Int :=
  let d := day.map toLowerGo
  if d = ['s','u','n'] then some 0
  else if d = ['m','o','n'] then some 1
  else if d = ['t','u','e'] then some 2
  else if d = ['w','e','d'] then some 3
  else if d = ['t','h','u'] then some 4
  else if d = ['f','r','i'] then some 5
  else if d = ['s','a','t'] then some 6
  else none

/-- The hour/minute checks of the CLI's `parseTimeOfDay`: a 4-character
string whose first two characters pass `strconv.Atoi` with value in
[0,23] and last two with value in [0,59]. -/
def parseHHMM (t : List Char) : Option (Int × Int) :=
  if t.length = 4 then
    match goAtoi (t.take 2) with
    | some h =>
      if 0 ≤ h ∧ h ≤ 23 then
        match goAtoi (t.drop 2) with
        | some m => if 0 ≤ m ∧ m ≤ 59 then some (h, m) else none
        | none => none
      else none
    | none => none
  else none

/-- CLI `parseTimeOfDay`: on success it returns
`time.Date(now.Year(), now.Month(), now.Day(), hour, minute, 0, 0, loc)`,
i.e. the parse-time date at the given wall-clock time. -/
def parseTimeOfDayCLI (now : Int) (t : List Char) : Option Int :=
  (parseHHMM t).map (fun p => dateAt now p.1 p.2)

/-- CLI `ParseSchedule`.  `now` is the instant at which the embedded
`time.Now()` of `parseTimeOfDay` is read. -/
def parseScheduleCLI (now : Int) (input : List Char) : Option Schedule :=
  let s1 := goTrimSpace input
  let ty := if s1.take 2 = ['e',' '] then ScheduleType.Repeating else ScheduleType.SingleRun
  let s2 := if s1.take 2 = ['e',' '] then s1.drop 2 else s1
  match parseIntervalCLI s2 with
  | some d => some { type := ty, interval := d, isInterval := true }
  | none =>
    match goFields s2 with
    | [p1, p2] =>
      match parseWeekday p1 with
      | some wd =>
        match parseTimeOfDayCLI now p2 with
        | some tod => some { type := ty, weekday := wd, timeOfDay := tod }
        | none => none
      | none => none
    | _ => none

/-! ## `CalculateNextRun` (`part_000`) -/

/-- The CLI's weekday-alignment loop
`for result.Weekday() != schedule.Weekday { result = result.AddDate(0, 0, 1) }`.
Adding a day advances the weekday cyclically, so for any valid weekday
(0–6) the loop stops within 6 iterations; the recursion is given fuel 7
accordingly (for an out-of-range weekday the Go loop would not
terminate, but `parseWeekday` only ever produces 0–6). -/
def alignWeekdayFuel : Nat → Int → Int → Int
  | 0, _, t => t
  | fuel + 1, wd, t => if weekdayOf t = wd then t else alignWeekdayFuel fuel wd (t + nsPerDay)

def alignWeekday (wd t : Int) : Int := alignWeekdayFuel 7 wd t

/-- The CLI's single-run catch-up loop
`for result.Before(now) { result = result.AddDate(0, 0, 7) }`. -/
def catchUpWeeks (now t : Int) : Int :=
  if t < now then catchUpWeeks now (t + nsPerWeek) else t
termination_by (now - t).toNat
decreasing_by
  simp only [nsPerWeek]
  omega

/-- `CalculateNextRun` from `part_000`; `now` is the instant read by its
`time.Now()` call.  The daemon's `updateJobSchedule` calls a function of
this name and this is its only definition in the repository. -/
def calculateNextRun (s : Schedule) (now : Int) : Int :=
  if s.isInterval then now + s.interval
  else
    let result := dateAt now (hourOf s.timeOfDay) (minuteOf s.timeOfDay)
    let aligned := alignWeekday s.weekday result
    if aligned < now then
      match s.type with
      | ScheduleType.Repeating => aligned + nsPerWeek
      | ScheduleType.SingleRun => catchUpWeeks now aligned
    else aligned

/-! ## Daemon (`antd.go`) parsing helpers

The daemon has its own copies of the helpers: its `parseInterval` is
`time.ParseDuration`, and its `parseTimeOfDay` is `time.Parse("15:04", ·)`.
-/

/-- Digit run of Go's `leadingInt` (`time/format.go`): accumulates the
value, failing once it exceeds 2^63. -/
def leadingIntGo : List Char → Nat → Option (Nat × List Char)
  | [], x => some (x, [])
  | c :: r, x =>
    if isDigit c then
      let y := 10 * x + (c.toNat - '0'.toNat)
      if y > 2 ^ 63 then none else leadingIntGo r y
    else some (x, c :: r)

/-- Digit run of Go's `leadingFraction`: like `leadingIntGo` but an
overflow only stops the accumulation while further digits are still
consumed.  Returns (value, scale, rest). -/
def leadingFractionGo : List Char → Nat → Nat → Bool → Nat × Nat × List Char
  | [], x, scale, _ => (x, scale, [])
  | c :: r, x, scale, overflow =>
    if isDigit c then
      if overflow then leadingFractionGo r x scale true
      else
        let y := 10 * x + (c.toNat - '0'.toNat)
        if y > 2 ^ 63 then leadingFractionGo r x scale true
        else leadingFractionGo r y (scale * 10) false
    else (x, scale, c :: r)

/-- The unit table of `time.ParseDuration` (values in nanoseconds). -/
def unitMapGo (u : List Char) : Option Nat :=
  if u = ['n','s'] then some 1
  else if u = ['u','s'] then some 1000
  else if u = [Char.ofNat 0xB5, 's'] then some 1000
  else if u = [Char.ofNat 0x3BC, 's'] then some 1000
  else if u = ['m','s'] then some 1000000
  else if u = ['s'] then some 1000000000
  else if u = ['m'] then some 60000000000
  else if u = ['h'] then some 3600000000000
  else none

/-- The `(number unit)+` loop of `time.ParseDuration`, accumulating the
total in nanoseconds.  Each iteration consumes at least one character,
so fuel `length + 1` always suffices.  Go computes the fractional
contribution in `float64`; exact integer division is used here, which
agrees except for sub-nanosecond rounding on extreme fractional inputs
(irrelevant to any schedule this system handles). -/
def parseDurationLoop : Nat → List Char → Nat → Option Nat
  | 0, _, _ => none
  | _, [], d => some d
  | fuel + 1, c0 :: s0, d =>
    let s := c0 :: s0
    if c0 = '.' ∨ isDigit c0 then
      match leadingIntGo s 0 with
      | none => none
      | some (v, s1) =>
        let pre : Bool := s1.length ≠ s.length
        let fsp : Nat × Nat × List Char × Bool :=
          match s1 with
          | '.' :: r =>
            let fr := leadingFractionGo r 0 1 false
            (fr.1, fr.2.1, fr.2.2, decide (fr.2.2.length ≠ r.length))
          | _ => (0, 1, s1, false)
        let f := fsp.1
        let scale := fsp.2.1
        let s2 := fsp.2.2.1
        let post := fsp.2.2.2
        if pre = false ∧ post = false then none
        else
          let u := s2.takeWhile (fun c => ¬(c = '.' ∨ isDigit c))
          let s3 := s2.drop u.length
          if u = [] then none
          else
            match unitMapGo u with
            | none => none
            | some unit =>
              if v > 2 ^ 63 / unit then none
              else
                let v2 := if f > 0 then v * unit + (f * unit) / scale else v * unit
                if f > 0 ∧ v2 > 2 ^ 63 then none
                else
                  let d1 := d + v2
                  if d1 > 2 ^ 63 then none
                  else parseDurationLoop fuel s3 d1
    else none

/-- Model of Go `time.ParseDuration` (the daemon's `parseInterval`). -/
def goParseDuration (s : List Char) : Option Int :=
  let sg : Bool × List Char :=
    match s with
    | '-' :: r => (true, r)
    | '+' :: r => (false, r)
    | _ => (false, s)
  let neg := sg.1
  let s1 := sg.2
  if s1 = ['0'] then some 0
  else if s1 = [] then none
  else
    match parseDurationLoop (s1.length + 1) s1 0 with
    | none => none
    | some d =>
      if neg then some (-(d : Int))
      else if d > 2 ^ 63 - 1 then none
      else some (d : Int)

/-- Model of the daemon's `parseTimeOfDay`, i.e. `time.Parse("15:04", s)`:
a 1- or 2-digit hour (2 if the second character is a digit), a literal
colon, exactly two minute digits, nothing after; hour < 24, minute < 60.
Returns the `(Hour(), Minute())` pair, the only parts ever read. -/
def daemonParseTimeOfDay (s : List Char) : Option (Int × Int) :=
  match s with
  | [] => none
  | c1 :: rest1 =>
    if isDigit c1 then
      let hr : Nat × List Char :=
        match rest1 with
        | c2 :: rest2 =>
          if isDigit c2 then ((c1.toNat - '0'.toNat) * 10 + (c2.toNat - '0'.toNat), rest2)
          else (c1.toNat - '0'.toNat, c2 :: rest2)
        | [] => (c1.toNat - '0'.toNat, [])
      let hour := hr.1
      if hour ≥ 24 then none
      else
        match hr.2 with
        | ':' :: c3 :: c4 :: rest3 =>
          if isDigit c3 ∧ isDigit c4 ∧ rest3 = [] then
            let m := (c3.toNat - '0'.toNat) * 10 + (c4.toNat - '0'.toNat)
            if m ≥ 60 then none else some ((hour : Int), (m : Int))
          else none
        | _ => none
    else none

/-- Daemon `ParseSchedule` (`antd.go`): same shape as the CLI's, but the
interval branch is `time.ParseDuration` and the time branch is
`time.Parse("15:04", ·)`.  The parsed `TimeOfDay` is encoded as an
instant on day 0 with the given wall-clock time; only its
`Hour()`/`Minute()` are read downstream. -/
def parseScheduleDaemon (input : List Char) : Option Schedule :=
  let s1 := goTrimSpace input
  let ty := if s1.take 2 = ['e',' '] then ScheduleType.Repeating else ScheduleType.SingleRun
  let s2 := if s1.take 2 = ['e',' '] then s1.drop 2 else s1
  match goParseDuration s2 with
  | some d => some { type := ty, interval := d, isInterval := true }
  | none =>
    match goFields s2 with
    | [p1, p2] =>
      match parseWeekday p1 with
      | some wd =>
        match daemonParseTimeOfDay p2 with
        | some hm => some { type := ty, weekday := wd, timeOfDay := hm.1 * nsPerHour + hm.2 * nsPerMin }
        | none => none
      | none => none
    | _ => none

/-! ## Job rows and the engine's state transitions

A row of the `jobs` table.  The schema declares every column without
`NOT NULL`, so `pid` is modelled as `Option Int` (`none` = SQL NULL);
the stored `next_run`/`last_run` columns hold whole Unix seconds.
Store operations are modelled as pure functions on the row (list);
each `time.Now()` read inside one engine step is the step's `now`
parameter.  The `jobsMutex` serialises the poller's dispatch body and
every completion watcher's reset, so a concurrent execution is an
interleaving of these atomic actions.
-/

structure Row where
  id : Int
  schedule : List Char := []
  command : List Char := []
  pid : Option Int := some 0
  nextRun : Int := 0
  lastRun : Int := 0
deriving DecidableEq

/-- The poller's due-job query (`checkAndExecuteJobs`):
`SELECT … WHERE next_run <= ? AND (pid = 0 OR pid IS NULL)`. -/
def dueQuery (rows : List Row) (nowSec : Int) : List Row :=
  rows.filter (fun r => r.nextRun ≤ nowSec ∧ (r.pid = some 0 ∨ r.pid = none))

/-- `updateJobSchedule` (`antd.go`): returns the new `next_run` value to
persist, or `none` when nothing is persisted (empty schedule text, or a
schedule the daemon's `ParseSchedule` rejects — the latter is logged as
an error).  `now` is the instant of `CalculateNextRun`'s internal
`time.Now()`. -/
def updateJobScheduleModel (job : Row) (now : Int) : Option Int :=
  if job.schedule = [] then none
  else
    match parseScheduleDaemon job.schedule with
    | none => none
    | some sch => some (toUnixSec (calculateNextRun sch now))

/-- One job's slice of a poll tick after it was selected as due:
`executeJob` persists `pid = <new pid>, last_run = now`, then
`updateJobSchedule` persists a recomputed `next_run` when it yields one. -/
def dispatchAndReschedule (job : Row) (p now : Int) : Row :=
  let j1 := { job with pid := some p, lastRun := toUnixSec now }
  match updateJobScheduleModel j1 now with
  | some nr => { j1 with nextRun := nr }
  | none => j1

/-- The two lock-protected writers of a job's `pid`: the poller's
dispatch (`UPDATE jobs SET pid = ?, last_run = ?`) and a completion
watcher's reset (`UPDATE jobs SET pid = 0`). -/
inductive EngineAction
  | dispatch (p nowSec : Int)
  | reset
deriving DecidableEq

def applyAction : EngineAction → Row → Row
  | EngineAction.dispatch p nowSec, r => { r with pid := some p, lastRun := nowSec }
  | EngineAction.reset, r => { r with pid := some 0 }

/-- A serialisation of lock-protected actions applied in order. -/
def runTrace (tr : List EngineAction) (r : Row) : Row :=
  tr.foldl (fun s a => applyAction a s) r

/-- `DeleteJob` (`part_000`).  Result: `none` when the function returns
an error before deleting (no such row, or a NULL `pid` that fails the
`Scan` into an `int`); otherwise `some (sig, rows')` where `sig` is the
pid whose child processes were sent a termination signal
(`pkill -P <pid>`), if any, and `rows'` the remaining table.  `killOk`
is the outcome of the `pkill` command; the Go code only prints a
warning when it fails. -/
def deleteJobModel (rows : List Row) (jobID : Int) (killOk : Bool) :
    Option (Option Int × List Row) :=
  match rows.find? (fun r => r.id = jobID) with
  | none => none
  | some row =>
    match row.pid with
    | none => none
    | some p =>
      let sig : Option Int := if 0 < p then some p else none
      let _ := killOk
      some (sig, rows.filter (fun r => ¬ r.id = jobID))

/-! ## Spec-side definitions

These follow the words of the specification (§4.1/§6) rather than the
source, for comparison with the parser translated above.
-/

def isUnitChar (c : Char) : Bool := c = 's' || c = 'm' || c = 'h' || c = 'd' || c = 'w'

/-- The claimed schedule grammar, read literally from the spec:
`["e "] (<int><unit> | <wkd> <HHMM>)` — after trimming and stripping the
optional repeating marker, either a nonempty digit string followed by
exactly one unit suffix, or two whitespace-separated tokens: a
case-insensitive three-letter weekday and a 4-digit `HHMM` with hour in
[0,23] and minute in [0,59]. -/
def specGrammar (s : List Char) : Bool :=
  let s1 := goTrimSpace s
  let s2 := if s1.take 2 = ['e',' '] then s1.drop 2 else s1
  (match s2.getLast? with
   | some c => isUnitChar c && decide (s2.dropLast ≠ []) && s2.dropLast.all isDigit
   | none => false)
  ||
  (match goFields s2 with
   | [w, t] =>
     (parseWeekday w).isSome && decide (t.length = 4) && t.all isDigit &&
       decide (natOfDigits (t.take 2) ≤ 23) && decide (natOfDigits (t.drop 2) ≤ 59)
   | _ => false)

/-- The grammar the CLI's `ParseSchedule` actually accepts: as
`specGrammar`, except that the interval magnitude and the two-character
hour and minute fields are read by `strconv.Atoi`, which also admits a
leading sign and bounds the value to 64 bits. -/
def grammarCLI (s : List Char) : Bool :=
  let s1 := goTrimSpace s
  let s2 := if s1.take 2 = ['e',' '] then s1.drop 2 else s1
  (match s2.getLast? with
   | some c => isUnitChar c && (goAtoi s2.dropLast).isSome
   | none => false)
  ||
  (match goFields s2 with
   | [w, t] => (parseWeekday w).isSome && (parseHHMM t).isSome
   | _ => false)

/-- The structured content of a parsed schedule named by the idempotence
claim: kind, form, interval, weekday, and the wall-clock time of day. -/
def schedProj (s : Schedule) : ScheduleType × Bool × Int × Int × Int × Int :=
  (s.type, s.isInterval, s.interval, s.weekday, hourOf s.timeOfDay, minuteOf s.timeOfDay)

/-! ## Civil-time arithmetic lemmas -/

theorem weekdayOf_bounds (t : Int) : 0 ≤ weekdayOf t ∧ weekdayOf t < 7 := by
  unfold weekdayOf nsPerDay
  omega

theorem startOfDay_le (t : Int) : startOfDay t ≤ t := by
  unfold startOfDay nsPerDay
  omega

theorem lt_startOfDay_add_day (t : Int) : t < startOfDay t + nsPerDay := by
  unfold startOfDay nsPerDay
  omega

theorem hourOf_dateAt (t h m : Int) (hh0 : 0 ≤ h) (hh : h ≤ 23) (hm0 : 0 ≤ m) (hm : m ≤ 59) :
    hourOf (dateAt t h m) = h := by
  unfold hourOf dateAt startOfDay nsPerDay nsPerHour nsPerMin
  omega

theorem minuteOf_dateAt (t h m : Int) (_hh0 : 0 ≤ h) (_hh : h ≤ 23) (hm0 : 0 ≤ m) (hm : m ≤ 59) :
    minuteOf (dateAt t h m) = m := by
  unfold minuteOf dateAt startOfDay nsPerDay nsPerHour nsPerMin
  omega

theorem weekdayOf_dateAt (t h m : Int) (_hh0 : 0 ≤ h) (_hh : h ≤ 23) (hm0 : 0 ≤ m) (hm : m ≤ 59) :
    weekdayOf (dateAt t h m) = weekdayOf t := by
  unfold weekdayOf dateAt startOfDay nsPerDay nsPerHour nsPerMin
  omega

theorem hourOf_add_days (t K : Int) : hourOf (t + K * nsPerDay) = hourOf t := by
  unfold hourOf nsPerDay nsPerHour
  omega

theorem minuteOf_add_days (t K : Int) : minuteOf (t + K * nsPerDay) = minuteOf t := by
  unfold minuteOf nsPerDay nsPerHour nsPerMin
  omega

theorem weekdayOf_add_day (t : Int) : weekdayOf (t + nsPerDay) = (weekdayOf t + 1) % 7 := by
  unfold weekdayOf nsPerDay
  omega

theorem weekdayOf_add_weeks (t K : Int) : weekdayOf (t + K * nsPerWeek) = weekdayOf t := by
  unfold weekdayOf nsPerDay nsPerWeek
  omega

/-! ## Loop lemmas for `CalculateNextRun` -/

theorem alignWeekdayFuel_spec (fuel : Nat) : ∀ wd t : Int, 0 ≤ wd → wd < 7 →
    (wd - weekdayOf t) % 7 < fuel →
    alignWeekdayFuel fuel wd t = t + ((wd - weekdayOf t) % 7) * nsPerDay ∧
    weekdayOf (alignWeekdayFuel fuel wd t) = wd := by
  induction fuel with
  | zero =>
    intro wd t _ _ hlt
    omega
  | succ n ih =>
    intro wd t hwd0 hwd7 hlt
    by_cases heq : weekdayOf t = wd
    · have hk : (wd - weekdayOf t) % 7 = 0 := by omega
      have ha : alignWeekdayFuel (n + 1) wd t = t := by
        simp only [alignWeekdayFuel, heq, ite_true, if_pos]
      rw [ha, hk]
      exact ⟨by simp, heq⟩
    · have hb := weekdayOf_bounds t
      have h1 : weekdayOf (t + nsPerDay) = (weekdayOf t + 1) % 7 := weekdayOf_add_day t
      have hk : (wd - weekdayOf (t + nsPerDay)) % 7 = (wd - weekdayOf t) % 7 - 1 := by
        rw [h1]; omega
      obtain ⟨e1, e2⟩ := ih wd (t + nsPerDay) hwd0 hwd7 (by omega)
      simp only [alignWeekdayFuel, heq, if_false, ite_false]
      constructor
      · rw [e1, hk]
        unfold nsPerDay
        have hknn : 0 ≤ (wd - weekdayOf t) % 7 := by omega
        omega
      · exact e2

theorem alignWeekday_spec (wd t : Int) (h0 : 0 ≤ wd) (h7 : wd < 7) :
    alignWeekday wd t = t + ((wd - weekdayOf t) % 7) * nsPerDay ∧
    weekdayOf (alignWeekday wd t) = wd ∧
    0 ≤ (wd - weekdayOf t) % 7 ∧ (wd - weekdayOf t) % 7 ≤ 6 := by
  have h := alignWeekdayFuel_spec 7 wd t h0 h7 (by omega)
  exact ⟨h.1, h.2, by omega, by omega⟩

theorem catchUpWeeks_aux (n : Nat) : ∀ now t : Int, (now - t).toNat ≤ n →
    ∃ j : Nat, catchUpWeeks now t = t + (j : Int) * nsPerWeek ∧ now ≤ catchUpWeeks now t := by
  induction n with
  | zero =>
    intro now t hle
    have hnl : ¬ t < now := by omega
    rw [catchUpWeeks, if_neg hnl]
    exact ⟨0, by simp, by omega⟩
  | succ n ih =>
    intro now t hle
    by_cases h : t < now
    · rw [catchUpWeeks, if_pos h]
      obtain ⟨j, e1, e2⟩ := ih now (t + nsPerWeek) (by unfold nsPerWeek; omega)
      refine ⟨j + 1, ?_, e2⟩
      rw [e1]
      push_cast
      ring
    · rw [catchUpWeeks, if_neg h]
      exact ⟨0, by simp, by omega⟩

theorem catchUpWeeks_spec (now t : Int) :
    ∃ j : Nat, catchUpWeeks now t = t + (j : Int) * nsPerWeek ∧ now ≤ catchUpWeeks now t :=
  catchUpWeeks_aux (now - t).toNat now t (le_refl _)

theorem hourOf_bounds (t : Int) : 0 ≤ hourOf t ∧ hourOf t ≤ 23 := by
  unfold hourOf nsPerDay nsPerHour
  omega

theorem minuteOf_bounds (t : Int) : 0 ≤ minuteOf t ∧ minuteOf t ≤ 59 := by
  unfold minuteOf nsPerDay nsPerHour nsPerMin
  omega

theorem parseWeekday_range (w : List Char) (wd : Int) (h : parseWeekday w = some wd) :
    0 ≤ wd ∧ wd < 7 := by
  simp only [parseWeekday] at h
  split_ifs at h <;> simp_all <;> omega

/-- Unfolding equation of `CalculateNextRun` in the weekday/time form. -/
theorem calculateNextRun_weekday_eq (s : Schedule) (now : Int) (hint : s.isInterval = false) :
    calculateNextRun s now =
      if alignWeekday s.weekday (dateAt now (hourOf s.timeOfDay) (minuteOf s.timeOfDay)) < now then
        (match s.type with
          | ScheduleType.Repeating =>
            alignWeekday s.weekday (dateAt now (hourOf s.timeOfDay) (minuteOf s.timeOfDay)) + nsPerWeek
          | ScheduleType.SingleRun =>
            catchUpWeeks now (alignWeekday s.weekday (dateAt now (hourOf s.timeOfDay) (minuteOf s.timeOfDay))))
      else alignWeekday s.weekday (dateAt now (hourOf s.timeOfDay) (minuteOf s.timeOfDay)) := by
  unfold calculateNextRun
  rw [hint]
  simp

/-- The behaviour of `CalculateNextRun` on any weekday/time schedule with
a valid weekday: the branch structure, the 0–6-day alignment, the
whole-week catch-up, and the invariants (never before `now`, aligned to
the requested weekday and wall-clock time). -/
theorem calculateNextRun_weekday_props (s : Schedule) (now : Int)
    (hint : s.isInterval = false) (hwd0 : 0 ≤ s.weekday) (hwd7 : s.weekday < 7) :
    (¬ alignWeekday s.weekday (dateAt now (hourOf s.timeOfDay) (minuteOf s.timeOfDay)) < now →
      calculateNextRun s now
        = alignWeekday s.weekday (dateAt now (hourOf s.timeOfDay) (minuteOf s.timeOfDay))) ∧
    (alignWeekday s.weekday (dateAt now (hourOf s.timeOfDay) (minuteOf s.timeOfDay)) < now →
      s.type = ScheduleType.Repeating →
      calculateNextRun s now
        = alignWeekday s.weekday (dateAt now (hourOf s.timeOfDay) (minuteOf s.timeOfDay)) + nsPerWeek) ∧
    (alignWeekday s.weekday (dateAt now (hourOf s.timeOfDay) (minuteOf s.timeOfDay)) < now →
      s.type = ScheduleType.SingleRun →
      calculateNextRun s now
        = catchUpWeeks now (alignWeekday s.weekday (dateAt now (hourOf s.timeOfDay) (minuteOf s.timeOfDay)))) ∧
    (∃ k : Int, 0 ≤ k ∧ k ≤ 6 ∧
      alignWeekday s.weekday (dateAt now (hourOf s.timeOfDay) (minuteOf s.timeOfDay))
        = dateAt now (hourOf s.timeOfDay) (minuteOf s.timeOfDay) + k * nsPerDay ∧
      weekdayOf (alignWeekday s.weekday (dateAt now (hourOf s.timeOfDay) (minuteOf s.timeOfDay)))
        = s.weekday) ∧
    (∃ j : Nat, calculateNextRun s now
        = alignWeekday s.weekday (dateAt now (hourOf s.timeOfDay) (minuteOf s.timeOfDay))
          + (j : Int) * nsPerWeek) ∧
    now ≤ calculateNextRun s now ∧
    weekdayOf (calculateNextRun s now) = s.weekday ∧
    hourOf (calculateNextRun s now) = hourOf s.timeOfDay ∧
    minuteOf (calculateNextRun s now) = minuteOf s.timeOfDay := by
  have hhb := hourOf_bounds s.timeOfDay
  have hmb := minuteOf_bounds s.timeOfDay
  have hre := calculateNextRun_weekday_eq s now hint
  obtain ⟨ealign, ewd, hk0, hk6⟩ :=
    alignWeekday_spec s.weekday (dateAt now (hourOf s.timeOfDay) (minuteOf s.timeOfDay)) hwd0 hwd7
  have hb1 : now - nsPerDay <
      dateAt now (hourOf s.timeOfDay) (minuteOf s.timeOfDay) := by
    unfold dateAt startOfDay nsPerDay nsPerHour nsPerMin
    omega
  have c5 : ¬ alignWeekday s.weekday (dateAt now (hourOf s.timeOfDay) (minuteOf s.timeOfDay)) < now →
      calculateNextRun s now
        = alignWeekday s.weekday (dateAt now (hourOf s.timeOfDay) (minuteOf s.timeOfDay)) := by
    intro hge
    rw [hre, if_neg hge]
  have c6 : alignWeekday s.weekday (dateAt now (hourOf s.timeOfDay) (minuteOf s.timeOfDay)) < now →
      s.type = ScheduleType.Repeating →
      calculateNextRun s now
        = alignWeekday s.weekday (dateAt now (hourOf s.timeOfDay) (minuteOf s.timeOfDay)) + nsPerWeek := by
    intro hlt hty
    rw [hre, if_pos hlt, hty]
  have c7 : alignWeekday s.weekday (dateAt now (hourOf s.timeOfDay) (minuteOf s.timeOfDay)) < now →
      s.type = ScheduleType.SingleRun →
      calculateNextRun s now
        = catchUpWeeks now (alignWeekday s.weekday (dateAt now (hourOf s.timeOfDay) (minuteOf s.timeOfDay))) := by
    intro hlt hty
    rw [hre, if_pos hlt, hty]
  have c9 : ∃ j : Nat, calculateNextRun s now
      = alignWeekday s.weekday (dateAt now (hourOf s.timeOfDay) (minuteOf s.timeOfDay))
        + (j : Int) * nsPerWeek := by
    by_cases hlt : alignWeekday s.weekday (dateAt now (hourOf s.timeOfDay) (minuteOf s.timeOfDay)) < now
    · cases hty : s.type with
      | Repeating => exact ⟨1, by rw [c6 hlt hty]; push_cast; ring⟩
      | SingleRun =>
        obtain ⟨j, ej, _⟩ := catchUpWeeks_spec now
          (alignWeekday s.weekday (dateAt now (hourOf s.timeOfDay) (minuteOf s.timeOfDay)))
        exact ⟨j, by rw [c7 hlt hty]; exact ej⟩
    · exact ⟨0, by rw [c5 hlt]; simp⟩
  have c1 : now ≤ calculateNextRun s now := by
    by_cases hlt : alignWeekday s.weekday (dateAt now (hourOf s.timeOfDay) (minuteOf s.timeOfDay)) < now
    · cases hty : s.type with
      | Repeating =>
        rw [c6 hlt hty]
        rw [ealign] at hlt ⊢
        unfold nsPerWeek nsPerDay at *
        omega
      | SingleRun =>
        rw [c7 hlt hty]
        exact (catchUpWeeks_spec now _).choose_spec.2
    · rw [c5 hlt]
      omega
  obtain ⟨j, ej⟩ := c9
  have hKform : calculateNextRun s now
      = dateAt now (hourOf s.timeOfDay) (minuteOf s.timeOfDay)
        + ((s.weekday - weekdayOf (dateAt now (hourOf s.timeOfDay) (minuteOf s.timeOfDay))) % 7
            + 7 * (j : Int)) * nsPerDay := by
    rw [ej, ealign]
    unfold nsPerWeek nsPerDay
    ring
  have c2 : weekdayOf (calculateNextRun s now) = s.weekday := by
    rw [ej, weekdayOf_add_weeks, ewd]
  have c3 : hourOf (calculateNextRun s now) = hourOf s.timeOfDay := by
    rw [hKform, hourOf_add_days,
      hourOf_dateAt now (hourOf s.timeOfDay) (minuteOf s.timeOfDay) hhb.1 hhb.2 hmb.1 hmb.2]
  have c4 : minuteOf (calculateNextRun s now) = minuteOf s.timeOfDay := by
    rw [hKform, minuteOf_add_days,
      minuteOf_dateAt now (hourOf s.timeOfDay) (minuteOf s.timeOfDay) hhb.1 hhb.2 hmb.1 hmb.2]
  exact ⟨c5, c6, c7, ⟨_, hk0, hk6, ealign, ewd⟩, ⟨j, ej⟩, c1, c2, c3, c4⟩

/-- A schedule parsed by the CLI in weekday/time form has a weekday in 0–6. -/
theorem parseScheduleCLI_weekday_inv (tp : Int) (input : List Char) (s : Schedule)
    (hp : parseScheduleCLI tp input = some s) (hint : s.isInterval = false) :
    0 ≤ s.weekday ∧ s.weekday < 7 := by
  simp only [parseScheduleCLI] at hp
  split at hp
  · cases hp
    simp at hint
  · split at hp
    · split at hp
      · split at hp
        · cases hp
          rename_i x1 wd hwd x2 tod htod
          simpa using parseWeekday_range _ _ hwd
        · exact absurd hp (by simp)
      · exact absurd hp (by simp)
    · exact absurd hp (by simp)

/-- C3 (amended): for every weekday/time schedule parsed by the CLI and
every instant `now`, `CalculateNextRun` returns an instant that is never
before `now` (it can equal `now` exactly, as the counterexample shows),
whose weekday is the schedule's weekday and whose time of day is the
schedule's time of day; when the instant aligned on the current week is
strictly before `now`, a Repeating schedule advances by exactly one 7-day
period and a SingleRun schedule advances by 7-day periods until no longer
before `now`.  In particular `"mon 0900"` evaluated on Wednesday
1970-01-07 12:00 yields the upcoming Monday, 1970-01-12 09:00. -/
theorem c3_weekday_next_run (tp now : Int) (input : List Char) (s : Schedule)
    (hp : parseScheduleCLI tp input = some s) (hint : s.isInterval = false) :
    now ≤ calculateNextRun s now ∧
    weekdayOf (calculateNextRun s now) = s.weekday ∧
    hourOf (calculateNextRun s now) = hourOf s.timeOfDay ∧
    minuteOf (calculateNextRun s now) = minuteOf s.timeOfDay ∧
    (¬ alignWeekday s.weekday (dateAt now (hourOf s.timeOfDay) (minuteOf s.timeOfDay)) < now →
      calculateNextRun s now
        = alignWeekday s.weekday (dateAt now (hourOf s.timeOfDay) (minuteOf s.timeOfDay))) ∧
    (alignWeekday s.weekday (dateAt now (hourOf s.timeOfDay) (minuteOf s.timeOfDay)) < now →
      s.type = ScheduleType.Repeating →
      calculateNextRun s now
        = alignWeekday s.weekday (dateAt now (hourOf s.timeOfDay) (minuteOf s.timeOfDay)) + nsPerWeek) ∧
    (alignWeekday s.weekday (dateAt now (hourOf s.timeOfDay) (minuteOf s.timeOfDay)) < now →
      s.type = ScheduleType.SingleRun →
      calculateNextRun s now
        = catchUpWeeks now
            (alignWeekday s.weekday (dateAt now (hourOf s.timeOfDay) (minuteOf s.timeOfDay)))) ∧
    (parseScheduleCLI 0 (String.toList "mon 0900")).map
        (fun sc => calculateNextRun sc 561600000000000) = some 982800000000000 := by
  obtain ⟨hwd0, hwd7⟩ := parseScheduleCLI_weekday_inv tp input s hp hint
  obtain ⟨h5, h6, h7, _, _, h1, h2, h3, h4⟩ := calculateNextRun_weekday_props s now hint hwd0 hwd7
  exact ⟨h1, h2, h3, h4, h5, h6, h7, by decide⟩

theorem c3_weekday_next_run_witness :
    (0 : Int) ≤ calculateNextRun ⟨ScheduleType.SingleRun, 0, 2, 49380000000000, false⟩ 0 ∧
    weekdayOf (calculateNextRun ⟨ScheduleType.SingleRun, 0, 2, 49380000000000, false⟩ 0) = 2 :=
  let h := c3_weekday_next_run 5 0 (String.toList "tue 1343")
    ⟨ScheduleType.SingleRun, 0, 2, 49380000000000, false⟩ (by decide) (by decide)
  ⟨h.1, h.2.1⟩

/-- C3 counterexample: with schedule `"mon 0900"` and `now` exactly Monday
1970-01-05 09:00:00.000000000 (378000000000000 ns), `CalculateNextRun`
returns `now` itself — the result is not strictly in the future, because
the code only advances when the aligned instant is strictly `Before` now. -/
theorem c3_counterexample :
    (parseScheduleCLI 0 (String.toList "mon 0900")).map
        (fun sc => calculateNextRun sc 378000000000000) = some 378000000000000 := by
  decide

/-- C10: `CalculateNextRun` terminates on every parsed schedule: the
interval branch has no loop, the weekday-alignment loop stops after at
most 6 one-day advances at the requested weekday, and the catch-up loop
adds whole 7-day periods finitely many times, ending not before `now`. -/
theorem c10_termination (tp now : Int) (input : List Char) (s : Schedule)
    (hp : parseScheduleCLI tp input = some s) :
    (s.isInterval = true → calculateNextRun s now = now + s.interval) ∧
    (s.isInterval = false →
      ∃ k : Int, 0 ≤ k ∧ k ≤ 6 ∧
        alignWeekday s.weekday (dateAt now (hourOf s.timeOfDay) (minuteOf s.timeOfDay))
          = dateAt now (hourOf s.timeOfDay) (minuteOf s.timeOfDay) + k * nsPerDay ∧
        weekdayOf (alignWeekday s.weekday (dateAt now (hourOf s.timeOfDay) (minuteOf s.timeOfDay)))
          = s.weekday ∧
        ∃ j : Nat, calculateNextRun s now
            = alignWeekday s.weekday (dateAt now (hourOf s.timeOfDay) (minuteOf s.timeOfDay))
              + (j : Int) * nsPerWeek ∧
          now ≤ calculateNextRun s now) := by
  constructor
  · intro hi
    unfold calculateNextRun
    rw [hi]
    simp
  · intro hint
    obtain ⟨hwd0, hwd7⟩ := parseScheduleCLI_weekday_inv tp input s hp hint
    obtain ⟨_, _, _, ⟨k, hk0, hk6, ek, ewdk⟩, ⟨j, ej⟩, h1, _, _, _⟩ :=
      calculateNextRun_weekday_props s now hint hwd0 hwd7
    exact ⟨k, hk0, hk6, ek, ewdk, j, ej, h1⟩

theorem c10_termination_witness :
    calculateNextRun ⟨ScheduleType.SingleRun, 900000000000, 0, 0, true⟩ 5
      = 5 + 900000000000 :=
  (c10_termination 0 5 (String.toList "15m")
    ⟨ScheduleType.SingleRun, 900000000000, 0, 0, true⟩ (by decide)).1 rfl

/-! ## Engine-level claims -/

/-- C4 (evaluation at the failing input): dispatching a job whose stored
schedule text is the CLI-valid `"mon 0900"` leaves `next_run` unchanged,
because the daemon's own `ParseSchedule` (Go-duration intervals, `HH:MM`
times) rejects the text the CLI writes — although the schedule text is
non-empty.  The remaining conjuncts show the parts of the behaviour that
do hold: an empty schedule text never changes `next_run`, and a parseable
text is re-armed identically whether the kind is SingleRun (`"15m"`) or
Repeating (`"e 15m"`) — the reschedule is not gated on the kind. -/
theorem c4_reschedule_gating :
    (dispatchAndReschedule
        { id := 1, schedule := String.toList "mon 0900", nextRun := 50 } 4242
        (100 * nsPerSec)).nextRun = 50 ∧
    String.toList "mon 0900" ≠ [] ∧
    (dispatchAndReschedule { id := 2, schedule := [], nextRun := 50 } 4242
        (100 * nsPerSec)).nextRun = 50 ∧
    (dispatchAndReschedule { id := 3, schedule := String.toList "15m", nextRun := 50 } 4242
        (100 * nsPerSec)).nextRun = 1000 ∧
    (parseScheduleDaemon (String.toList "15m")).map Schedule.type
      = some ScheduleType.SingleRun ∧
    (dispatchAndReschedule { id := 4, schedule := String.toList "e 15m", nextRun := 50 } 4242
        (100 * nsPerSec)).nextRun = 1000 ∧
    (parseScheduleDaemon (String.toList "e 15m")).map Schedule.type
      = some ScheduleType.Repeating := by
  decide

/-- C5 (amended): the due-job query selects exactly the rows with
`next_run <= now` and `pid` either 0 or NULL; in particular a row whose
`pid` is any nonzero integer is never selected, no matter how far past
`next_run` lies. -/
theorem c5_due_query (rows : List Row) (nowSec : Int) (r : Row) :
    (r ∈ dueQuery rows nowSec ↔
      r ∈ rows ∧ r.nextRun ≤ nowSec ∧ (r.pid = some 0 ∨ r.pid = none)) ∧
    (∀ p : Int, r.pid = some p → p ≠ 0 → r ∉ dueQuery rows nowSec) := by
  have hmem : r ∈ dueQuery rows nowSec ↔
      r ∈ rows ∧ r.nextRun ≤ nowSec ∧ (r.pid = some 0 ∨ r.pid = none) := by
    unfold dueQuery
    rw [List.mem_filter]
    simp
  refine ⟨hmem, ?_⟩
  intro p hp hne hinmem
  obtain ⟨_, _, hpid⟩ := hmem.1 hinmem
  rcases hpid with h0 | h0 <;> rw [hp] at h0 <;> simp_all

theorem c5_due_query_witness :
    ({ id := 1, pid := some 99, nextRun := -1000000 : Row }
        ∉ dueQuery [{ id := 1, pid := some 99, nextRun := -1000000 : Row }] 0) :=
  (c5_due_query [{ id := 1, pid := some 99, nextRun := -1000000 }] 0
    { id := 1, pid := some 99, nextRun := -1000000 }).2 99 rfl (by decide)

/-- C5 counterexample: the query's `WHERE` clause also admits rows whose
`pid` column is SQL NULL, so "exactly the rows with `pid = 0`" is wrong:
a NULL-pid row with a due `next_run` is selected although its pid is not 0. -/
theorem c5_counterexample :
    dueQuery [{ id := 1, pid := none, nextRun := 0 : Row }] 5
      = [{ id := 1, pid := none, nextRun := 0 : Row }] ∧
    ({ id := 1, pid := none, nextRun := 0 : Row }).pid ≠ some 0 := by
  decide

/-- C6: the `jobsMutex` makes the poller's dispatch write and a
completion watcher's reset atomic, so a concurrent execution is one of
the serialisations of the two actions; in each, every write takes full
effect (no lost update) and the final pid is exactly one of
{the just-dispatched pid, 0}. -/
theorem c6_no_lost_update (r0 : Row) (p nowSec : Int) :
    (∀ tr : List EngineAction,
      tr.Perm [EngineAction.dispatch p nowSec, EngineAction.reset] →
      (runTrace tr r0).pid = some p ∨ (runTrace tr r0).pid = some 0) ∧
    (runTrace [EngineAction.dispatch p nowSec] r0).pid = some p ∧
    (runTrace [EngineAction.reset] r0).pid = some 0 := by
  refine ⟨?_, rfl, rfl⟩
  intro tr htr
  have hlen : tr.length = 2 := by simpa using htr.length_eq
  rcases tr with _ | ⟨x, _ | ⟨y, _ | ⟨z, rest⟩⟩⟩
  · simp at hlen
  · simp at hlen
  · have hx : x ∈ [EngineAction.dispatch p nowSec, EngineAction.reset] :=
      htr.mem_iff.1 (by simp)
    simp only [List.mem_cons, List.not_mem_nil, or_false] at hx
    rcases hx with hx | hx
    · subst hx
      have h2 : [y].Perm [EngineAction.reset] := htr.cons_inv
      have hy : y = EngineAction.reset := by simpa using h2
      subst hy
      simp [runTrace, applyAction, List.foldl]
    · subst hx
      have hd : EngineAction.dispatch p nowSec ∈ [EngineAction.reset, y] :=
        htr.mem_iff.2 (by simp)
      simp only [List.mem_cons, List.not_mem_nil, or_false] at hd
      rcases hd with hd | hd
      · exact absurd hd (by simp)
      · rw [← hd]
        simp [runTrace, applyAction, List.foldl]
  · simp at hlen

theorem c6_no_lost_update_witness :
    (runTrace [EngineAction.reset, EngineAction.dispatch 77 9] { id := 1 }).pid = some 77 ∨
    (runTrace [EngineAction.reset, EngineAction.dispatch 77 9] { id := 1 }).pid = some 0 :=
  (c6_no_lost_update { id := 1 } 77 9).1
    [EngineAction.reset, EngineAction.dispatch 77 9] (by decide)

/-- C9 (amended): deleting an existing row whose stored pid is non-NULL
sends a termination signal to the children of that pid exactly when the
pid is strictly positive (not merely nonzero), and removes the row
unconditionally — the outcome of the kill command does not influence the
result at all. -/
theorem c9_delete_job (rows : List Row) (jobID : Int) (row : Row) (killOk : Bool) (p : Int)
    (hfind : rows.find? (fun r => r.id = jobID) = some row) (hp : row.pid = some p) :
    deleteJobModel rows jobID killOk
      = some ((if 0 < p then some p else none), rows.filter (fun r => ¬ r.id = jobID)) ∧
    (∀ k2 : Bool, deleteJobModel rows jobID killOk = deleteJobModel rows jobID k2) := by
  constructor
  · simp [deleteJobModel, hfind, hp]
  · intro k2
    rfl

theorem c9_delete_job_witness :
    deleteJobModel [{ id := 3, pid := some 4821 : Row }] 3 false = some (some 4821, []) :=
  ((c9_delete_job [{ id := 3, pid := some 4821 }] 3 { id := 3, pid := some 4821 } false 4821
      (by decide) rfl).1).trans (by decide)

/-- C9 counterexample: `DeleteJob` signals only when `pid > 0`; an
existing row recording the nonzero pid −1 is removed without any
termination signal being issued, contradicting "if nonzero … a
termination signal is sent". -/
theorem c9_counterexample :
    deleteJobModel [{ id := 1, pid := some (-1) : Row }] 1 true = some (none, []) ∧
    ({ id := 1, pid := some (-1) : Row }).pid ≠ some 0 := by
  decide

/-! ## Parser lemmas -/

theorem wrap64_eq (x : Int) (h1 : -(2 ^ 63) ≤ x) (h2 : x ≤ 2 ^ 63 - 1) : wrap64 x = x := by
  unfold wrap64
  omega

theorem unitNs_pos (c : Char) (u : Int) (hu : unitNs c = some u) : 1 ≤ u := by
  unfold unitNs at hu
  split_ifs at hu <;> simp_all [nsPerSec, nsPerMin, nsPerHour, nsPerDay, nsPerWeek] <;> omega

theorem parseHHMM_ranges (t : List Char) (hm : Int × Int) (h : parseHHMM t = some hm) :
    0 ≤ hm.1 ∧ hm.1 ≤ 23 ∧ 0 ≤ hm.2 ∧ hm.2 ≤ 59 := by
  unfold parseHHMM at h
  split at h
  · split at h
    · split at h
      · split at h
        · split at h
          · simp only [Option.some.injEq] at h
            subst h
            simp_all
          · exact absurd h (by simp)
        · exact absurd h (by simp)
      · exact absurd h (by simp)
    · exact absurd h (by simp)
  · exact absurd h (by simp)

/-- The weekday branch of `ParseSchedule` projects identically at any
two parse instants. -/
theorem weekBranchProj (ty : ScheduleType) (p1 p2 : List Char) (t1 t2 : Int) :
    Option.map schedProj
      (match parseWeekday p1 with
        | some wd =>
          match parseTimeOfDayCLI t1 p2 with
          | some tod => some { type := ty, weekday := wd, timeOfDay := tod, isInterval := false }
          | none => none
        | none => none)
    = Option.map schedProj
      (match parseWeekday p1 with
        | some wd =>
          match parseTimeOfDayCLI t2 p2 with
          | some tod => some { type := ty, weekday := wd, timeOfDay := tod, isInterval := false }
          | none => none
        | none => none) := by
  cases parseWeekday p1 with
  | none => rfl
  | some wd =>
    unfold parseTimeOfDayCLI
    cases hhm : parseHHMM p2 with
    | none => rfl
    | some hm =>
      obtain ⟨h1, h2, h3, h4⟩ := parseHHMM_ranges p2 hm hhm
      simp only [Option.map, schedProj]
      rw [hourOf_dateAt t1 hm.1 hm.2 h1 h2 h3 h4, hourOf_dateAt t2 hm.1 hm.2 h1 h2 h3 h4,
        minuteOf_dateAt t1 hm.1 hm.2 h1 h2 h3 h4, minuteOf_dateAt t2 hm.1 hm.2 h1 h2 h3 h4]

/-- C7: `ParseSchedule` is a deterministic function of its input: parses
performed at any two instants agree on acceptance and on every structured
component — kind, form, interval, weekday and wall-clock time of day.
(The raw `TimeOfDay` value also records the parse-time *date*, which is
never consumed; the claim's own list of compared components is exactly
`schedProj`.) -/
theorem c7_parse_deterministic (input : List Char) (t1 t2 : Int) :
    (parseScheduleCLI t1 input).map schedProj = (parseScheduleCLI t2 input).map schedProj := by
  simp only [parseScheduleCLI]
  cases parseIntervalCLI
      (if List.take 2 (goTrimSpace input) = ['e', ' '] then List.drop 2 (goTrimSpace input)
        else goTrimSpace input) with
  | some d => rfl
  | none =>
    cases goFields
        (if List.take 2 (goTrimSpace input) = ['e', ' '] then List.drop 2 (goTrimSpace input)
          else goTrimSpace input) with
    | nil => rfl
    | cons p1 rest =>
      cases rest with
      | nil => rfl
      | cons p2 rest2 =>
        cases rest2 with
        | cons q qs => rfl
        | nil => exact weekBranchProj _ p1 p2 t1 t2

/-- C8 (amended): an interval accepted by the CLI's `parseInterval` is
the Atoi-parsed integer times the unit; it is strictly positive whenever
that integer is at least 1 and the product does not overflow a 64-bit
duration — but zero and negative magnitudes are also accepted
(counterexample), so positivity is conditional, not an invariant. -/
theorem c8_interval_positive (s : List Char) (d n u : Int) (c : Char)
    (hp : parseIntervalCLI s = some d)
    (hc : s.getLast? = some c) (hu : unitNs c = some u)
    (hn : goAtoi s.dropLast = some n)
    (h1 : 1 ≤ n) (hrange : n * u ≤ 2 ^ 63 - 1) : 0 < d := by
  simp only [parseIntervalCLI, hc, hu, hn, Option.some.injEq] at hp
  have hupos : 1 ≤ u := unitNs_pos c u hu
  have hprod : 0 < n * u := mul_pos (by omega) (by omega)
  rw [wrap64_eq (n * u) (by omega) hrange] at hp
  omega

theorem c8_interval_positive_witness :
    parseIntervalCLI (String.toList "15m") = some 900000000000 ∧ (0 : Int) < 900000000000 :=
  ⟨by decide,
    c8_interval_positive (String.toList "15m") 900000000000 15 60000000000 'm'
      (by decide) (by decide) (by decide) (by decide) (by decide) (by decide)⟩

/-- C8 counterexample: the interval branch accepts `"0s"` with interval 0
and `"-5m"` with a negative interval — not strictly positive durations. -/
theorem c8_counterexample :
    (parseScheduleCLI 0 (String.toList "0s")).map (fun sc => (sc.isInterval, sc.interval))
      = some (true, 0) ∧
    (parseScheduleCLI 0 (String.toList "-5m")).map (fun sc => (sc.isInterval, sc.interval))
      = some (true, -300000000000) := by
  decide

/-! ## Character and string lemmas for the grammar claims -/

theorem goIsSpace_of_digit (c : Char) (h : isDigit c = true) : goIsSpace c = false := by
  have h' : 48 ≤ c.toNat ∧ c.toNat ≤ 57 := by simpa [isDigit] using h
  simp only [goIsSpace, Bool.or_eq_false_iff, Bool.and_eq_false_iff,
    decide_eq_false_iff_not]
  omega

theorem dropWhile_eq_self_of_not (p : Char → Bool) :
    ∀ l : List Char, (∀ c ∈ l, p c = false) → l.dropWhile p = l
  | [], _ => rfl
  | a :: l, h => by
    rw [List.dropWhile_cons, h a (by simp)]
    simp

theorem goTrimSpace_eq_self (s : List Char) (h : ∀ c ∈ s, goIsSpace c = false) :
    goTrimSpace s = s := by
  unfold goTrimSpace
  rw [dropWhile_eq_self_of_not _ s h,
    dropWhile_eq_self_of_not _ s.reverse (fun c hc => h c (by simpa using hc))]
  exact List.reverse_reverse s

theorem goAtoi_digits (ds : List Char) (hne : ds ≠ []) (hd : ds.all isDigit = true)
    (hle : (natOfDigits ds : Int) ≤ 2 ^ 63 - 1) :
    goAtoi ds = some ((natOfDigits ds : Int)) := by
  have hcore : atoiCore ds 1 = some ((natOfDigits ds : Int)) := by
    unfold atoiCore
    rw [if_pos ⟨hne, hd⟩]
    have hv : -(2 ^ 63) ≤ 1 * (natOfDigits ds : Int) ∧
        1 * (natOfDigits ds : Int) ≤ 2 ^ 63 - 1 := by omega
    rw [if_pos hv]
    simp
  cases ds with
  | nil => exact absurd rfl hne
  | cons c r =>
    have hcd : isDigit c = true := by
      have := List.all_eq_true.mp hd c (by simp)
      simpa using this
    have hcne1 : c ≠ '+' := by
      intro hE
      rw [hE] at hcd
      exact absurd hcd (by decide)
    have hcne2 : c ≠ '-' := by
      intro hE
      rw [hE] at hcd
      exact absurd hcd (by decide)
    unfold goAtoi
    split
    · rename_i r' heq
      injection heq with h1 _
      exact absurd h1 hcne1
    · rename_i r' heq
      injection heq with h1 _
      exact absurd h1 hcne2
    · exact hcore

/-- C2 (amended): for every valid interval schedule string `<n><unit>`
whose duration `n·unit` fits in a 64-bit signed nanosecond count, parsing
followed by `CalculateNextRun` at `t0` yields exactly `t0 + n·unit`,
unconditionally and with no drift correction.  (When `n·unit` overflows
int64 the Go multiplication wraps — see the counterexample.) -/
theorem c2_interval_next_run (ds : List Char) (c : Char) (u : Int) (tp t0 : Int)
    (hne : ds ≠ []) (hdig : ds.all isDigit = true)
    (hu : unitNs c = some u)
    (hrange : (natOfDigits ds : Int) * u ≤ 2 ^ 63 - 1) :
    (parseScheduleCLI tp (ds ++ [c])).map (fun sc => calculateNextRun sc t0)
      = some (t0 + (natOfDigits ds : Int) * u) := by
  have hupos : 1 ≤ u := unitNs_pos c u hu
  have hnn : (0 : Int) ≤ (natOfDigits ds : Int) := by omega
  have hle : (natOfDigits ds : Int) ≤ 2 ^ 63 - 1 := by
    have h1 : (natOfDigits ds : Int) * 1 ≤ (natOfDigits ds : Int) * u :=
      mul_le_mul_of_nonneg_left hupos hnn
    omega
  have hnospace : ∀ x ∈ ds ++ [c], goIsSpace x = false := by
    intro x hx
    rcases List.mem_append.1 hx with hx | hx
    · exact goIsSpace_of_digit x (by simpa using List.all_eq_true.mp hdig x hx)
    · have hxc : x = c := by simpa using hx
      subst hxc
      unfold unitNs at hu
      split_ifs at hu with h1 h2 h3 h4 h5
      · subst h1; decide
      · subst h2; decide
      · subst h3; decide
      · subst h4; decide
      · subst h5; decide
  have htrim : goTrimSpace (ds ++ [c]) = ds ++ [c] := goTrimSpace_eq_self _ hnospace
  have htake : ¬ (ds ++ [c]).take 2 = ['e', ' '] := by
    cases ds with
    | nil => exact absurd rfl hne
    | cons d r =>
      have hd0 : isDigit d = true := by
        simpa using List.all_eq_true.mp hdig d (by simp)
      intro hEq
      simp only [List.cons_append, List.take_succ_cons, List.cons.injEq] at hEq
      rw [hEq.1] at hd0
      exact absurd hd0 (by decide)
  have hatoi : goAtoi ds = some ((natOfDigits ds : Int)) := goAtoi_digits ds hne hdig hle
  have hwrap : wrap64 ((natOfDigits ds : Int) * u) = (natOfDigits ds : Int) * u := by
    have hprodnn : (0 : Int) ≤ (natOfDigits ds : Int) * u := mul_nonneg hnn (by omega)
    exact wrap64_eq _ (by omega) hrange
  have hpi : parseIntervalCLI (ds ++ [c]) = some ((natOfDigits ds : Int) * u) := by
    unfold parseIntervalCLI
    rw [List.getLast?_concat, List.dropLast_concat]
    simp only [hu, hatoi, hwrap]
  simp only [parseScheduleCLI, htrim, if_neg htake, hpi]
  simp [calculateNextRun]

theorem c2_interval_next_run_witness :
    (parseScheduleCLI 0 (String.toList "15" ++ ['m'])).map (fun sc => calculateNextRun sc 7)
      = some (7 + (natOfDigits (String.toList "15") : Int) * 60000000000) :=
  c2_interval_next_run (String.toList "15") 'm' 60000000000 0 7
    (by decide) (by decide) (by decide) (by decide)

/-- C2 counterexample: the interval string `"9223372036854775807s"`
(n = 2^63 − 1) is accepted, but `time.Duration(n) * time.Second` wraps
modulo 2^64 to −1 second, so the computed next run at `t0 = 0` is
−1000000000 ns = t0 − 1s, not `t0 + n` seconds. -/
theorem c2_counterexample :
    (parseScheduleCLI 0 (String.toList "9223372036854775807s")).map
        (fun sc => calculateNextRun sc 0) = some (-1000000000) ∧
    (0 : Int) + 9223372036854775807 * nsPerSec ≠ -1000000000 := by
  decide

theorem unitNs_isSome (c : Char) : (unitNs c).isSome = isUnitChar c := by
  unfold unitNs isUnitChar
  split_ifs <;> simp_all

theorem intervalBranch_isSome (s : List Char) (c : Char) :
    Option.isSome ((match unitNs c with
      | some u =>
        match goAtoi s.dropLast with
        | some n => some (wrap64 (n * u))
        | none => none
      | none => none) : Option Int)
    = (isUnitChar c && (goAtoi s.dropLast).isSome) := by
  have hiff := unitNs_isSome c
  cases hv : unitNs c with
  | none =>
    rw [hv] at hiff
    simp only [Option.isSome_none] at hiff
    simp [← hiff]
  | some u =>
    rw [hv] at hiff
    simp only [Option.isSome_some] at hiff
    cases goAtoi s.dropLast with
    | none => simp [← hiff]
    | some n => simp [← hiff]

theorem parseIntervalCLI_isSome (s : List Char) :
    (parseIntervalCLI s).isSome =
      (match s.getLast? with
        | some c => isUnitChar c && (goAtoi s.dropLast).isSome
        | none => false) := by
  unfold parseIntervalCLI
  cases s.getLast? with
  | none => rfl
  | some c => exact intervalBranch_isSome s c

theorem weekdaySide_isSome (ty : ScheduleType) (now : Int) (p1 p2 : List Char) :
    Option.isSome
      ((match parseWeekday p1 with
        | some wd =>
          match parseTimeOfDayCLI now p2 with
          | some tod =>
            some { type := ty, weekday := wd, timeOfDay := tod, isInterval := false }
          | none => none
        | none => none) : Option Schedule)
    = ((parseWeekday p1).isSome && (parseHHMM p2).isSome) := by
  cases parseWeekday p1 with
  | none => rfl
  | some wd =>
    unfold parseTimeOfDayCLI
    cases parseHHMM p2 with
    | none => rfl
    | some hm => rfl

/-- C1 (amended): the CLI's `ParseSchedule` accepts a string exactly when
it matches the claimed grammar with the numeric fields read the way
`strconv.Atoi` reads them: after trimming and stripping the optional
`"e "` marker, either an Atoi-integer (optional sign, 64-bit range)
immediately followed by one unit in {s,m,h,d,w}, or exactly two
whitespace-separated fields — a weekday name compared case-insensitively
under Go's Unicode lowering (so `frİ` with U+0130 also names Friday) and
a 4-character time whose 2-character hour and minute fields are
Atoi-numbers in [0,23] and [0,59] (so a leading sign digit is also
accepted).  The daemon's `ParseSchedule` accepts a different language
(see the counterexample). -/
theorem c1_cli_grammar (now : Int) (s : List Char) :
    (parseScheduleCLI now s).isSome = grammarCLI s := by
  simp only [parseScheduleCLI, grammarCLI]
  set s2 := (if List.take 2 (goTrimSpace s) = ['e', ' '] then List.drop 2 (goTrimSpace s)
    else goTrimSpace s) with hs2
  have hint := parseIntervalCLI_isSome s2
  cases hpi : parseIntervalCLI s2 with
  | some d =>
    rw [hpi, Option.isSome_some] at hint
    rw [← hint]
    simp
  | none =>
    rw [hpi, Option.isSome_none] at hint
    rw [← hint]
    simp only [Bool.false_or]
    cases goFields s2 with
    | nil => rfl
    | cons p1 rest =>
      cases rest with
      | nil => rfl
      | cons p2 rest2 =>
        cases rest2 with
        | cons q qs => rfl
        | nil => exact weekdaySide_isSome _ now p1 p2

/-- C1 counterexample: the claim fails in both directions and for both
parsers.  The CLI accepts `"mon +900"`, which the spec grammar rejects
(`+900` is not a 4-digit `HHMM`).  The daemon rejects the grammar-valid
`"1d"` (Go's `time.ParseDuration` knows no day unit) and accepts the
grammar-invalid `"1h30m"`. -/
theorem c1_counterexample :
    (parseScheduleCLI 0 (String.toList "mon +900")).isSome = true ∧
    specGrammar (String.toList "mon +900") = false ∧
    (parseScheduleDaemon (String.toList "1d")).isSome = false ∧
    specGrammar (String.toList "1d") = true ∧
    (parseScheduleDaemon (String.toList "1h30m")).isSome = true ∧
    specGrammar (String.toList "1h30m") = false := by
  decide

end Ant
